import Mathlib

/-!
Verification development for the fund-vs-benchmark daily performance
analyzer (`src/mf_daily_performance.py`).

The embedding models, faithfully to the Python source:

* `similar` / `find_best_scheme` — the fuzzy name matcher, including the
  character-level sequence matching performed by
  `difflib.SequenceMatcher(None, a.lower(), b.lower()).ratio()`.
  The matcher is called with `isjunk=None`, so the junk set is empty; the
  `autojunk` popularity heuristic (active only for right-hand strings of
  length at least 200; fund names and queries are far shorter) is omitted
  from the model.  Python strings are modelled as `List Char`,
  `str.lower` as `Char.toLower` (they agree on ASCII, which covers the
  catalog and query alphabet), and float ratios as exact rationals.

* the per-fund alignment pipeline (`analyze_funds`, lines 160-189) over an
  explicit extended-float value type `F` (finite rational, `+inf`, `-inf`,
  `NaN`) because the pipeline deliberately relies on IEEE NaN propagation
  plus `dropna`, and an unguarded division by a zero previous NAV produces
  an IEEE infinity.  Finite float values are idealized as exact rationals.

* the metric computations (`analyze_funds`, lines 192-241) over exact
  rationals, with the NaN sentinels used by the source
  (`np.nan` + `pd.notna` guards) represented as `Option ℚ`; the Pearson
  correlation returned by `pandas.Series.corr` is real-valued (it involves
  a square root), so it enters the model as an opaque `Option ℚ` input to
  the classification and summary-assembly steps, which is all the claims
  about it depend on.

* the orchestration loop (queries to summary records / no-data placeholder)
  with the two external fetches represented as inputs of the environment.
-/

attribute [local semireducible] Rat.add Rat.mul Rat.sub Rat.inv

namespace MF

/-! ### Sequence matching: `difflib.SequenceMatcher.ratio` on lower-cased strings -/

/-- Lower-casing of a Python string (`str.lower`); ASCII-faithful. -/
def lowerStr (s : List Char) : List Char := s.map Char.toLower

/-- Python `str.strip()` with no argument: drop leading whitespace. -/
def stripL (s : List Char) : List Char := s.dropWhile Char.isWhitespace

/-- Python `str.strip()` with no argument: drop trailing whitespace. -/
def stripR (s : List Char) : List Char := (s.reverse.dropWhile Char.isWhitespace).reverse

/-- Python `str.strip()`: drop leading and trailing whitespace. -/
def stripWs (s : List Char) : List Char := stripR (stripL s)

/-- Python substring containment `sub in s` (contiguous substring). -/
def containsSub (sub s : List Char) : Bool :=
  (List.range (s.length + 1)).any (fun i => decide ((s.drop i).take sub.length = sub))

/-- A matching block as returned by `SequenceMatcher.find_longest_match`:
start index in `a`, start index in `b`, and the block length. -/
structure SMatch where
  i : ℕ
  j : ℕ
  size : ℕ
deriving DecidableEq, Repr

/-- The `b2j` lookup of `SequenceMatcher` restricted to the query window:
positions `j` of `b` with `blo <= j < bhi` carrying the character `a[i]`,
in increasing order.  (In the Python code the ascending full position list
is traversed with `continue` below `blo` and `break` at `bhi`, which is the
same traversal.) -/
def jIndices (a b : List Char) (blo bhi i : ℕ) : List ℕ :=
  (List.range b.length).filter
    (fun j => decide (blo ≤ j ∧ j < bhi ∧ b.getD j ' ' = a.getD i ' '))

/-- Inner loop of `find_longest_match` for one value of `i`: walk the
positions `j` of `a[i]` inside `b`, extending runs recorded in the previous
iteration map `old` (`j2len`), building the map for this iteration (`new`,
`newj2len`) and updating the best block on strict improvement.
Python evaluates `i-k+1` and `j-k+1` over the integers; here `k` never
exceeds `i+1` or `j+1` (the run cannot be longer than either prefix), so
truncated subtraction computes the same values. -/
def innerLoop (i : ℕ) (old : ℕ → ℕ) : List ℕ → (ℕ → ℕ) → SMatch → ((ℕ → ℕ) × SMatch)
  | [], new, best => (new, best)
  | j :: js, new, best =>
    let k := (if j = 0 then 0 else old (j - 1)) + 1
    innerLoop i old js (fun x => if x = j then k else new x)
      (if best.size < k then ⟨i + 1 - k, j + 1 - k, k⟩ else best)

/-- Outer loop of `find_longest_match`: iterate `i` over `range(alo, ahi)`,
threading the run-length map and the best block. -/
def outerLoop (a b : List Char) (blo bhi : ℕ) : List ℕ → (ℕ → ℕ) → SMatch → SMatch
  | [], _, best => best
  | i :: rest, j2len, best =>
    let p := innerLoop i j2len (jIndices a b blo bhi i) (fun _ => 0) best
    outerLoop a b blo bhi rest p.1 p.2

/-- Left extension loop of `find_longest_match` ("extend the best by
non-junk elements on each end"; the junk set is empty, so the non-junk
condition is vacuous and the junk extension loops never fire).  The loop
decrements `besti`, so `besti` itself bounds the iteration count and is
used as structural fuel. -/
def extendLeftF (a b : List Char) (alo blo : ℕ) : ℕ → SMatch → SMatch
  | 0, m => m
  | fuel + 1, m =>
    if alo < m.i ∧ blo < m.j ∧ a.getD (m.i - 1) ' ' = b.getD (m.j - 1) ' ' then
      extendLeftF a b alo blo fuel ⟨m.i - 1, m.j - 1, m.size + 1⟩
    else m

/-- Right extension loop of `find_longest_match`.  Each step needs
`bestj + bestsize < bhi`, so `bhi` bounds the iteration count and is used
as structural fuel. -/
def extendRightF (a b : List Char) (ahi bhi : ℕ) : ℕ → SMatch → SMatch
  | 0, m => m
  | fuel + 1, m =>
    if m.i + m.size < ahi ∧ m.j + m.size < bhi ∧
        a.getD (m.i + m.size) ' ' = b.getD (m.j + m.size) ' ' then
      extendRightF a b ahi bhi fuel ⟨m.i, m.j, m.size + 1⟩
    else m

/-- `SequenceMatcher.find_longest_match(alo, ahi, blo, bhi)`: dynamic
programming sweep followed by the two (non-junk) extension loops. -/
def findLongestMatch (a b : List Char) (alo ahi blo bhi : ℕ) : SMatch :=
  let m0 := outerLoop a b blo bhi (List.range' alo (ahi - alo)) (fun _ => 0) ⟨alo, blo, 0⟩
  extendRightF a b ahi bhi bhi (extendLeftF a b alo blo m0.i m0)

/-- Total size of the matching blocks found by the recursive block
decomposition of `SequenceMatcher.get_matching_blocks` (only the size sum
feeds `ratio`; the adjacent-block merge step leaves it unchanged).  The
recursion splits around the longest match exactly as the Python queue
does; each sub-interval is strictly shorter in the `a` direction, so the
initial interval length `a.length` is sufficient structural fuel. -/
def matchesTotalF (a b : List Char) : ℕ → ℕ → ℕ → ℕ → ℕ → ℕ
  | 0, _, _, _, _ => 0
  | fuel + 1, alo, ahi, blo, bhi =>
    let m := findLongestMatch a b alo ahi blo bhi
    if m.size = 0 then 0
    else
      m.size +
        (if alo < m.i ∧ blo < m.j then matchesTotalF a b fuel alo m.i blo m.j else 0) +
        (if m.i + m.size < ahi ∧ m.j + m.size < bhi then
          matchesTotalF a b fuel (m.i + m.size) ahi (m.j + m.size) bhi
        else 0)

/-- `SequenceMatcher.ratio()`: `2*M / (len(a)+len(b))`, and `1.0` for two
empty sequences (`_calculate_ratio`). -/
def seqRatioQ (a b : List Char) : ℚ :=
  if a.length + b.length = 0 then 1
  else 2 * (matchesTotalF a b a.length 0 a.length 0 b.length : ℚ) / (a.length + b.length)

/-- The scripts helper `similar(a, b)`:
`SequenceMatcher(None, a.lower(), b.lower()).ratio()`. -/
def similar (a b : List Char) : ℚ := seqRatioQ (lowerStr a) (lowerStr b)

/-! ### NameMatcher: `find_best_scheme` -/

/-- One catalog entry from the mfapi scheme list: `schemeCode` and
`schemeName`. -/
structure Scheme where
  schemeCode : ℕ
  schemeName : List Char
deriving DecidableEq, Repr

/-- Python `max(substring_matches, key=lambda x: similar(query, x["schemeName"]))`:
fold keeping the current maximum, replacing it only on a strictly greater
key, with the first element as the initial value. -/
def maxBySim (q : List Char) : List Scheme → Scheme → Scheme
  | [], best => best
  | f :: fs, best =>
    maxBySim q fs (if similar q best.schemeName < similar q f.schemeName then f else best)

/-- The fallback fuzzy scan of `find_best_scheme`: running best entry and
best score, starting from `(None, 0.0)`, updating only on a strictly
greater score. -/
def fuzzyScan (q : List Char) : List Scheme → Option Scheme → ℚ → Option Scheme × ℚ
  | [], best, score => (best, score)
  | f :: fs, best, score =>
    if score < similar q f.schemeName then
      fuzzyScan q fs (some f) (similar q f.schemeName)
    else fuzzyScan q fs best score

/-- The substring pass of `find_best_scheme`: catalog entries whose
lower-cased name contains `query.lower().strip()` as a substring. -/
def substrMatches (fund_list : List Scheme) (q : List Char) : List Scheme :=
  fund_list.filter (fun f => containsSub (stripWs (lowerStr q)) (lowerStr f.schemeName))

/-- `find_best_scheme(fund_list, query)`: one substring hit is returned
with score 1.0; several substring hits are resolved by maximal `similar`
against the raw query; otherwise the exhaustive fuzzy scan runs, returning
`(None, 0.0)` when no score strictly exceeds the initial 0. -/
def find_best_scheme (fund_list : List Scheme) (q : List Char) : Option Scheme × ℚ :=
  match substrMatches fund_list q with
  | [f] => (some f, 1)
  | f :: g :: rest =>
    let best := maxBySim q (g :: rest) f
    (some best, similar q best.schemeName)
  | [] => fuzzyScan q fund_list none 0

/-! ### Extended float values for the alignment pipeline -/

/-- IEEE-double value as it flows through the pandas pipeline: a finite
value (idealized as an exact rational), an infinity, or NaN. -/
inductive F where
  | fin : ℚ → F
  | pinf : F
  | ninf : F
  | nan : F
deriving DecidableEq, Repr

/-- Predicate matching `pandas.isna` / the rows removed by `dropna`:
true exactly on NaN (infinities are NOT na). -/
def F.isNaN : F → Bool
  | F.nan => true
  | _ => false

/-- IEEE subtraction on the modelled values. -/
def fsub : F → F → F
  | F.nan, _ => F.nan
  | _, F.nan => F.nan
  | F.fin a, F.fin b => F.fin (a - b)
  | F.pinf, F.pinf => F.nan
  | F.ninf, F.ninf => F.nan
  | F.pinf, _ => F.pinf
  | F.ninf, _ => F.ninf
  | F.fin _, F.pinf => F.ninf
  | F.fin _, F.ninf => F.pinf

/-- IEEE division on the modelled values; in particular a nonzero finite
numerator over zero is a signed infinity and `0/0` is NaN. -/
def fdiv : F → F → F
  | F.nan, _ => F.nan
  | _, F.nan => F.nan
  | F.fin a, F.fin b =>
    if b = 0 then (if a = 0 then F.nan else if 0 < a then F.pinf else F.ninf)
    else F.fin (a / b)
  | F.pinf, F.fin b => if 0 ≤ b then F.pinf else F.ninf
  | F.ninf, F.fin b => if 0 ≤ b then F.ninf else F.pinf
  | F.fin _, F.pinf => F.fin 0
  | F.fin _, F.ninf => F.fin 0
  | F.pinf, F.pinf => F.nan
  | F.pinf, F.ninf => F.nan
  | F.ninf, F.pinf => F.nan
  | F.ninf, F.ninf => F.nan

/-- IEEE multiplication on the modelled values. -/
def fmul : F → F → F
  | F.nan, _ => F.nan
  | _, F.nan => F.nan
  | F.fin a, F.fin b => F.fin (a * b)
  | F.pinf, F.fin b => if b = 0 then F.nan else if 0 < b then F.pinf else F.ninf
  | F.ninf, F.fin b => if b = 0 then F.nan else if 0 < b then F.ninf else F.pinf
  | F.fin a, F.pinf => if a = 0 then F.nan else if 0 < a then F.pinf else F.ninf
  | F.fin a, F.ninf => if a = 0 then F.nan else if 0 < a then F.ninf else F.pinf
  | F.pinf, F.pinf => F.pinf
  | F.pinf, F.ninf => F.ninf
  | F.ninf, F.pinf => F.ninf
  | F.ninf, F.ninf => F.pinf

/-- The percent-change formula used for both series:
`(end - start) / start * 100`. -/
def pctChange (e s : F) : F := fmul (fdiv (fsub e s) s) (F.fin 100)

/-! ### SeriesAligner: `analyze_funds` lines 160-189 -/

/-- Ordering of NAV points by date, used by `sort_values('date')`. -/
def dateLe (p q : ℕ × ℚ) : Prop := p.1 ≤ q.1

instance : DecidableRel dateLe := fun p q => Nat.decLe p.1 q.1

instance : IsTotal (ℕ × ℚ) dateLe := ⟨fun a b => Nat.le_total a.1 b.1⟩

instance : IsTrans (ℕ × ℚ) dateLe :=
  ⟨fun _ _ _ h1 h2 => Nat.le_trans h1 h2⟩

/-- Chronological sort of the parsed NAV points (`sort_values('date')`;
dates are unique in the data, so the choice of comparison sort is
irrelevant and a stable insertion sort models it). -/
def sortPts (pts : List (ℕ × ℚ)) : List (ℕ × ℚ) := List.insertionSort dateLe pts

/-- Window filter `df[df['date'] >= start_date]`, applied AFTER the
chronological sort of the full history. -/
def windowOf (pts : List (ℕ × ℚ)) (sd : ℕ) : List (ℕ × ℚ) :=
  (sortPts pts).filter (fun p => decide (sd ≤ p.1))

/-- Accumulator form of `df['NAV'].shift(1)` combined with the original
column: each point is tagged with the value of the point one row above
(`prev`), the first row receiving NaN. -/
def shiftGo (prev : F) : List (ℕ × ℚ) → List (ℕ × F × ℚ)
  | [] => []
  | p :: rest => (p.1, prev, p.2) :: shiftGo (F.fin p.2) rest

/-- Lines 171-172: `Fund Start = NAV.shift(1)`, `Fund End = NAV`, on the
window-filtered frame. -/
def shiftStarts (w : List (ℕ × ℚ)) : List (ℕ × F × ℚ) := shiftGo F.nan w

/-- One row of the merged fund/NIFTY frame (the per-fund detail table). -/
structure RowF where
  date : ℕ
  fundStart : F
  fundEnd : ℚ
  fundChange : F
  niftyStart : ℚ
  niftyEnd : ℚ
  niftyChange : F
deriving DecidableEq, Repr

/-- Inner join on `date` (line 178-180) of the fund frame against the
NIFTY bars `(date, Open, Close)`; pandas keeps the order of the left
keys.  `Fund % Change` is the line-174 formula evaluated from the shifted
start, and `NIFTY % Change` is the line-128 formula `(Close-Open)/Open*100`
(NIFTY rows passed `dropna` on Open/Close, so those are finite). -/
def mergedRows (w : List (ℕ × F × ℚ)) (nifty : List (ℕ × ℚ × ℚ)) : List RowF :=
  w.flatMap (fun p =>
    (nifty.filter (fun b => decide (b.1 = p.1))).map (fun b =>
      ⟨p.1, p.2.1, p.2.2, pctChange (F.fin p.2.2) p.2.1,
        b.2.1, b.2.2, pctChange (F.fin b.2.2) (F.fin b.2.1)⟩))

/-- Line 186: `merged.dropna(subset=['Fund % Change', 'NIFTY % Change'])` —
drops exactly the rows in which either change is NaN (an infinity is not
na and survives). -/
def dropInvalid (rows : List RowF) : List RowF :=
  rows.filter (fun r => !r.fundChange.isNaN && !r.niftyChange.isNaN)

/-- The whole per-fund alignment pipeline: sort the full cleaned history,
filter to the window, shift for the start column, inner-join with the
benchmark bars, and drop NaN-change rows. -/
def alignFund (pts : List (ℕ × ℚ)) (sd : ℕ) (nifty : List (ℕ × ℚ × ℚ)) : List RowF :=
  dropInvalid (mergedRows (shiftStarts (windowOf pts sd)) nifty)

/-! ### MetricsEngine: `analyze_funds` lines 192-241 -/

/-- The two change columns of one aligned row, as consumed by the metric
computations (finite float values idealized as rationals). -/
structure MRow where
  fundChange : ℚ
  niftyChange : ℚ
deriving DecidableEq, Repr

/-- Arithmetic mean of a pandas column. -/
def qmean (l : List ℚ) : ℚ := l.sum / l.length

/-- Line 196: `up_mask = merged['NIFTY % Change'] > 0`. -/
def upRows (rows : List MRow) : List MRow :=
  rows.filter (fun r => decide (0 < r.niftyChange))

/-- Line 197: `down_mask = merged['NIFTY % Change'] < 0`. -/
def downRows (rows : List MRow) : List MRow :=
  rows.filter (fun r => decide (r.niftyChange < 0))

/-- Line 203: up capture.  The source stores `np.nan` when the up
partition is empty (lines 198-199 put NaN in the averages) or when the
average NIFTY up-move is exactly zero, and guards every use with
`pd.notna`; the NaN sentinel is modelled as `none`. -/
def upCapture (rows : List MRow) : Option ℚ :=
  let u := upRows rows
  if u.isEmpty then none
  else
    let aN := qmean (u.map (fun r => r.niftyChange))
    if aN = 0 then none
    else some (qmean (u.map (fun r => r.fundChange)) / aN * 100)

/-- Line 204: down capture, `abs(avg_fund_down) / abs(avg_nifty_down) * 100`
with the same NaN conventions. -/
def downCapture (rows : List MRow) : Option ℚ :=
  let d := downRows rows
  if d.isEmpty then none
  else
    let aN := qmean (d.map (fun r => r.niftyChange))
    if aN = 0 then none
    else some (|qmean (d.map (fun r => r.fundChange))| / |aN| * 100)

/-- Lines 206-214: the behavior label from the (unrounded) correlation;
`none` models an undefined (NaN) correlation. -/
def behaviorOf : Option ℚ → String
  | none => "Insufficient Data"
  | some c =>
    if 3/5 ≤ c then "With Market"
    else if c ≤ -(1/5) then "Against Market"
    else "Low/Neutral Corr"

/-- Lines 216-224: the tolerance label from the (unrounded) capture
ratios; `none` models an undefined (NaN) capture. -/
def toleranceOf : Option ℚ → Option ℚ → String
  | some u, some d =>
    if 100 < u ∧ d < 100 then "High"
    else if u < 90 ∧ 120 < d then "Low"
    else "Medium"
  | _, _ => "Unknown"

/-- Line 193: `np.sign`. -/
def qsgn (q : ℚ) : ℤ := if 0 < q then 1 else if q < 0 then -1 else 0

/-- Lines 193-194: percentage of rows whose two changes have equal sign. -/
def withPct (rows : List MRow) : ℚ :=
  (rows.countP (fun r => decide (qsgn r.fundChange = qsgn r.niftyChange)) : ℚ)
    / rows.length * 100

/-- Python `round(x, d)` idealized over exact decimals: round half to
even at the integer step. -/
def roundHalfEven (q : ℚ) : ℤ :=
  let f := Rat.floor q
  let r := q - f
  if r < 1/2 then f
  else if 1/2 < r then f + 1
  else if 2 ∣ f then f else f + 1

/-- Python `round(x, d)`: scale, round half to even, unscale. -/
def roundTo (d : ℕ) (q : ℚ) : ℚ := (roundHalfEven (q * 10 ^ d) : ℚ) / 10 ^ d

/-- The numeric and categorical fields of one summary row
(lines 227-241). -/
structure SummaryRec where
  dataPoints : ℕ
  correlation : Option ℚ
  withMarketPct : ℚ
  avgFund : ℚ
  avgNifty : ℚ
  upCap : Option ℚ
  downCap : Option ℚ
  behavior : String
  tolerance : String
deriving DecidableEq, Repr

/-- Assembly of one summary record from the aligned rows and the
correlation value `corr` (the Pearson coefficient computed by
`pandas.Series.corr`, which is irrational-valued in general and enters the
model as an input; `none` models NaN).  Rounding appears ONLY here, on the
emitted copies; the labels are computed from the unrounded values. -/
def summaryOf (corr : Option ℚ) (rows : List MRow) : SummaryRec :=
  { dataPoints := rows.length
    correlation := corr.map (roundTo 3)
    withMarketPct := roundTo 1 (withPct rows)
    avgFund := roundTo 4 (qmean (rows.map (fun r => r.fundChange)))
    avgNifty := roundTo 4 (qmean (rows.map (fun r => r.niftyChange)))
    upCap := (upCapture rows).map (roundTo 1)
    downCap := (downCapture rows).map (roundTo 1)
    behavior := behaviorOf corr
    tolerance := toleranceOf (upCapture rows) (downCapture rows) }

/-! ### FundAnalysisOrchestrator: the per-query loop of `analyze_funds` -/

/-- Inputs of one run: the catalog, the per-scheme NAV histories (`none`
models a failed `fetch_mf_details` call, i.e. the per-fund `except`
branch; the list is the parsed, cleaned point set), the window start and
the benchmark bars. -/
structure Env where
  fundList : List Scheme
  histories : ℕ → Option (List (ℕ × ℚ))
  startDate : ℕ
  nifty : List (ℕ × ℚ × ℚ)

/-- The aligned series a query ends up with: empty when there is no
catalog match, when the fetch fails or yields no points, or when the
aligned merge is empty.  (A raw history that is empty or entirely outside
the window makes `alignFund` return `[]`, which is exactly the condition
under which lines 156-189 `continue`.) -/
def alignedSeriesOf (env : Env) (q : List Char) : List RowF :=
  match (find_best_scheme env.fundList q).1 with
  | none => []
  | some best =>
    match env.histories best.schemeCode with
    | none => []
    | some pts => alignFund pts env.startDate env.nifty

/-- One iteration of the query loop: a fund whose aligned series is empty
is skipped (`continue`), any other fund contributes exactly one record. -/
def processQuery (env : Env) (q : List Char) : Option (List Char × List RowF) :=
  if alignedSeriesOf env q = [] then none else some (q, alignedSeriesOf env q)

/-- The collected `summary_rows` of the run. -/
def runSummaries (env : Env) (queries : List (List Char)) :
    List (List Char × List RowF) :=
  queries.filterMap (processQuery env)

/-- The user-visible result: either the summary collection or the
`No_Data` placeholder sheet (lines 256-271). -/
inductive RunOutput where
  | noData : RunOutput
  | sheets : List (List Char × List RowF) → RunOutput
deriving DecidableEq

/-- Lines 256-271: a summary sheet when any row was collected, otherwise
the placeholder. -/
def runOutput (env : Env) (queries : List (List Char)) : RunOutput :=
  if runSummaries env queries = [] then RunOutput.noData
  else RunOutput.sheets (runSummaries env queries)

/-! ### Verification-only predicates for the sequence matcher -/

/-- Invariant of the `j2len` run-length maps: a recorded run ending at
position `j` is no longer than the processed `a`-prefix (`cap`) and no
longer than the available `b`-window up to `j`. -/
def ChainBound (blo cap : ℕ) (f : ℕ → ℕ) : Prop :=
  ∀ j, f j ≤ cap ∧ f j ≤ j + 1 - blo

/-- Sanity of a candidate best block relative to the query window: a
non-trivial block lies inside `[alo, ahi) × [blo, bhi)`, and the trivial
block is the untouched initial `(alo, blo, 0)`. -/
def MatchOK (alo ahi blo bhi : ℕ) (m : SMatch) : Prop :=
  (m.size ≠ 0 → alo ≤ m.i ∧ m.i + m.size ≤ ahi ∧ blo ≤ m.j ∧ m.j + m.size ≤ bhi) ∧
  (m.size = 0 → m.i = alo ∧ m.j = blo)

/-- First-maximum characterization shared by the two selection folds of
`find_best_scheme` (`max(..., key=...)` and the running fuzzy maximum):
`m` occurs in the list, every element before it scores strictly less, and
every element after it scores no more. -/
def FirstMaxSim (q : List Char) (l : List Scheme) (m : Scheme) : Prop :=
  ∃ pre post, l = pre ++ m :: post ∧
    (∀ x ∈ pre, similar q x.schemeName < similar q m.schemeName) ∧
    (∀ x ∈ post, similar q x.schemeName ≤ similar q m.schemeName)

/-! ## Theorems -/

/-! ### Helper lemmas: shift and merge structure -/

theorem pw_of_all {α : Type} {R : α → α → Prop} (h : ∀ a b : α, R a b) :
    ∀ l : List α, l.Pairwise R := by
  intro l
  induction l with
  | nil => exact List.Pairwise.nil
  | cons x xs ih => exact List.Pairwise.cons (fun y _ => h x y) ih

theorem shiftGo_length : ∀ (prev : F) (w : List (ℕ × ℚ)),
    (shiftGo prev w).length = w.length := by
  intro prev w
  induction w generalizing prev with
  | nil => rfl
  | cons p rest ih => simp [shiftGo, ih]

theorem shiftGo_map_fst : ∀ (prev : F) (w : List (ℕ × ℚ)),
    (shiftGo prev w).map (fun t => t.1) = w.map (fun p => p.1) := by
  intro prev w
  induction w generalizing prev with
  | nil => rfl
  | cons p rest ih => simp [shiftGo, ih]

theorem shiftGo_get_zero :
    ∀ (w : List (ℕ × ℚ)) (prev : F) (h : 0 < (shiftGo prev w).length),
      ((shiftGo prev w).get ⟨0, h⟩).2.1 = prev := by
  intro w prev h
  cases w with
  | nil => exact absurd h (by simp [shiftGo])
  | cons p rest => rfl

theorem shiftGo_get_succ :
    ∀ (w : List (ℕ × ℚ)) (prev : F) (i : ℕ) (h : i + 1 < (shiftGo prev w).length)
      (hw : i < w.length) (hw1 : i + 1 < w.length),
      (shiftGo prev w).get ⟨i + 1, h⟩
        = ((w.get ⟨i + 1, hw1⟩).1, F.fin (w.get ⟨i, hw⟩).2, (w.get ⟨i + 1, hw1⟩).2) := by
  intro w
  induction w with
  | nil =>
    intro prev i h hw hw1
    exact absurd hw1 (by simp)
  | cons p rest ih =>
    intro prev i h hw hw1
    cases i with
    | zero =>
      cases rest with
      | nil => exact absurd hw1 (by simp)
      | cons r rest2 => rfl
    | succ i2 =>
      have h1 : i2 + 1 < (shiftGo (F.fin p.2) rest).length := by
        rw [shiftGo_length]
        have := hw1
        simpa using this
      have h2 : i2 < rest.length := by simpa using hw
      have h3 : i2 + 1 < rest.length := by simpa using hw1
      exact ih (F.fin p.2) i2 h1 h2 h3

theorem mem_shiftGo_after :
    ∀ (pre post : List (ℕ × ℚ)) (prev : F) (d1 d2 : ℕ) (x v : ℚ),
      (d2, F.fin x, v) ∈ shiftGo prev (pre ++ (d1, x) :: (d2, v) :: post) := by
  intro pre
  induction pre with
  | nil =>
    intro post prev d1 d2 x v
    simp [shiftGo]
  | cons p rest ih =>
    intro post prev d1 d2 x v
    simp only [List.cons_append, shiftGo, List.mem_cons]
    exact Or.inr (ih post (F.fin p.2) d1 d2 x v)

theorem mergedRows_mem_iff :
    ∀ (w : List (ℕ × F × ℚ)) (nifty : List (ℕ × ℚ × ℚ)) (r : RowF),
      r ∈ mergedRows w nifty ↔
        ∃ p ∈ w, ∃ b ∈ nifty, b.1 = p.1 ∧
          r = ⟨p.1, p.2.1, p.2.2, pctChange (F.fin p.2.2) p.2.1,
            b.2.1, b.2.2, pctChange (F.fin b.2.2) (F.fin b.2.1)⟩ := by
  intro w nifty r
  constructor
  · intro h
    rcases List.mem_flatMap.1 h with ⟨p, hp, hr⟩
    rcases List.mem_map.1 hr with ⟨b, hb, hbr⟩
    rcases List.mem_filter.1 hb with ⟨hbn, hbd⟩
    exact ⟨p, hp, b, hbn, of_decide_eq_true hbd, hbr.symm⟩
  · rintro ⟨p, hp, b, hb, hbd, hr⟩
    refine List.mem_flatMap.2 ⟨p, hp, List.mem_map.2 ⟨b, ?_, hr.symm⟩⟩
    exact List.mem_filter.2 ⟨hb, decide_eq_true hbd⟩

theorem mergedRows_pairwise :
    ∀ (w : List (ℕ × F × ℚ)) (nifty : List (ℕ × ℚ × ℚ)),
      w.Pairwise (fun a b => a.1 ≤ b.1) →
      (mergedRows w nifty).Pairwise (fun r s : RowF => r.date ≤ s.date) := by
  intro w nifty hw
  induction w with
  | nil => exact List.Pairwise.nil
  | cons p rest ih =>
    rcases List.pairwise_cons.1 hw with ⟨hhead, htail⟩
    have hrec := ih htail
    simp only [mergedRows, List.flatMap_cons]
    rw [List.pairwise_append]
    refine ⟨?_, hrec, ?_⟩
    · rw [List.pairwise_map]
      exact pw_of_all (fun a b => le_refl p.1) _
    · intro a ha b hb
      rcases List.mem_map.1 ha with ⟨b1, _, hb1⟩
      have hda : a.date = p.1 := by rw [← hb1]
      rcases (mergedRows_mem_iff rest nifty b).1 hb with ⟨q, hq, b2, _, _, hb2⟩
      have hdb : b.date = q.1 := by rw [hb2]
      rw [hda, hdb]
      exact hhead q hq

theorem windowOf_pairwise :
    ∀ (pts : List (ℕ × ℚ)) (sd : ℕ),
      (windowOf pts sd).Pairwise (fun p q => p.1 ≤ q.1) := by
  intro pts sd
  have hs : (sortPts pts).Pairwise dateLe := List.sorted_insertionSort dateLe pts
  exact List.Pairwise.filter _ hs

theorem windowOf_mem_fst :
    ∀ (pts : List (ℕ × ℚ)) (sd : ℕ) (p : ℕ × ℚ),
      p ∈ windowOf pts sd → p ∈ pts := by
  intro pts sd p hp
  have h1 : p ∈ sortPts pts := (List.mem_filter.1 hp).1
  exact (List.Perm.mem_iff (List.perm_insertionSort dateLe pts)).1 h1

/-! ### C1: where the fund start value comes from -/

/-- C1 (counterexample): with the full history `[(0, 10), (1, 20)]` and
window start 1, the single in-window point gets `fundStart = NaN`
(undefined) even though the earlier point `(0, 10)` exists just outside
the window — the claim demands `fundStart = 10` there — and the row is
subsequently dropped, leaving an empty aligned series. -/
theorem C1_counterexample :
    shiftStarts (windowOf [(0, 10), (1, 20)] 1) = [(1, F.nan, 20)] ∧
    (0, 10) ∈ sortPts [(0, 10), (1, 20)] ∧ (0 : ℕ) < 1 ∧
    F.nan ≠ F.fin 10 ∧
    alignFund [(0, 10), (1, 20)] 1 [(1, 100, 101)] = [] := by
  refine ⟨by decide, by decide, by decide, by decide, by decide⟩

/-- C1 (amended): `fundStart` is the value of the immediately preceding
point of the WINDOW-FILTERED series (the shift happens after the window
filter), so the first point inside the window always has an undefined
(NaN) `fundStart` — even when an earlier point exists before the window
start — and every later point takes the previous in-window value. -/
theorem C1_fund_start_window_shift :
    ∀ (pts : List (ℕ × ℚ)) (sd : ℕ),
      (∀ h : 0 < (shiftStarts (windowOf pts sd)).length,
        ((shiftStarts (windowOf pts sd)).get ⟨0, h⟩).2.1 = F.nan) ∧
      (∀ (i : ℕ) (h : i + 1 < (shiftStarts (windowOf pts sd)).length)
          (hw : i < (windowOf pts sd).length),
        ((shiftStarts (windowOf pts sd)).get ⟨i + 1, h⟩).2.1
          = F.fin ((windowOf pts sd).get ⟨i, hw⟩).2) := by
  intro pts sd
  constructor
  · intro h
    exact shiftGo_get_zero (windowOf pts sd) F.nan h
  · intro i h hw
    have hw1 : i + 1 < (windowOf pts sd).length := by
      have h2 : i + 1 < (shiftGo F.nan (windowOf pts sd)).length := h
      rwa [shiftGo_length] at h2
    have hg : i + 1 < (shiftGo F.nan (windowOf pts sd)).length := h
    have := shiftGo_get_succ (windowOf pts sd) F.nan i hg hw hw1
    calc ((shiftStarts (windowOf pts sd)).get ⟨i + 1, h⟩).2.1
        = ((shiftGo F.nan (windowOf pts sd)).get ⟨i + 1, hg⟩).2.1 := rfl
      _ = F.fin ((windowOf pts sd).get ⟨i, hw⟩).2 := by rw [this]

/-- C1 (witness): with window start 0 both points of `[(0,10),(1,20)]`
are in the window and the second point indeed gets `fundStart = 10`. -/
theorem C1_fund_start_window_shift_witness :
    ((shiftStarts (windowOf [(0, 10), (1, 20)] 0)).get ⟨1, by decide⟩).2.1 = F.fin 10 := by
  have h := (C1_fund_start_window_shift [(0, 10), (1, 20)] 0).2 0 (by decide) (by decide)
  exact h.trans (by decide)

/-! ### C7: invariants of the aligned output -/

/-- C7: every surviving aligned row has both percent changes defined
(non-NaN) and a date present in both source series, the output is ordered
by date ascending, and the empty list is a legal output (here produced
from a non-empty fund history with no usable overlap), signalling
"insufficient overlapping data" to the caller (see C9 for the skip). -/
theorem C7_aligned_invariants :
    (∀ (pts : List (ℕ × ℚ)) (sd : ℕ) (nifty : List (ℕ × ℚ × ℚ)),
      (alignFund pts sd nifty).Pairwise (fun r s : RowF => r.date ≤ s.date) ∧
      (∀ r ∈ alignFund pts sd nifty,
        r.fundChange.isNaN = false ∧ r.niftyChange.isNaN = false ∧
        r.date ∈ pts.map (fun p => p.1) ∧ r.date ∈ nifty.map (fun b => b.1))) ∧
    alignFund [(0, 1)] 5 [(0, 1, 1)] = [] := by
  constructor
  · intro pts sd nifty
    constructor
    · have hw : (shiftStarts (windowOf pts sd)).Pairwise (fun a b => a.1 ≤ b.1) := by
        rw [← List.pairwise_map (f := fun t : ℕ × F × ℚ => t.1)]
        rw [shiftStarts, shiftGo_map_fst]
        rw [List.pairwise_map]
        exact windowOf_pairwise pts sd
      exact List.Pairwise.filter _ (mergedRows_pairwise _ nifty hw)
    · intro r hr
      rcases List.mem_filter.1 hr with ⟨hm, hval⟩
      have hv : r.fundChange.isNaN = false ∧ r.niftyChange.isNaN = false := by
        simpa using hval
      refine ⟨hv.1, hv.2, ?_, ?_⟩
      · rcases (mergedRows_mem_iff _ nifty r).1 hm with ⟨p, hp, b, hb, hbd, hrw⟩
        have hpw : p.1 ∈ (windowOf pts sd).map (fun q => q.1) := by
          have : p.1 ∈ (shiftStarts (windowOf pts sd)).map (fun t => t.1) :=
            List.mem_map.2 ⟨p, hp, rfl⟩
          rwa [shiftStarts, shiftGo_map_fst] at this
        rcases List.mem_map.1 hpw with ⟨q, hq, hq1⟩
        have : q ∈ pts := windowOf_mem_fst pts sd q hq
        have hrd : r.date = p.1 := by rw [hrw]
        rw [hrd, ← hq1]
        exact List.mem_map.2 ⟨q, this, rfl⟩
      · rcases (mergedRows_mem_iff _ nifty r).1 hm with ⟨p, hp, b, hb, hbd, hrw⟩
        have hrd : r.date = p.1 := by rw [hrw]
        rw [hrd, ← hbd]
        exact List.mem_map.2 ⟨b, hb, rfl⟩
  · decide

/-- C7 (witness): on a concrete run producing one row, the row satisfies
the invariants. -/
theorem C7_aligned_invariants_witness :
    (⟨1, F.fin 10, 20, F.fin 100, 100, 101, F.fin 1⟩ : RowF).fundChange.isNaN = false ∧
    (⟨1, F.fin 10, 20, F.fin 100, 100, 101, F.fin 1⟩ : RowF).date
      ∈ [(0, (10 : ℚ)), (1, 20)].map (fun p => p.1) := by
  have h := (C7_aligned_invariants.1 [(0, 10), (1, 20)] 0 [(1, 100, 101)]).2
    ⟨1, F.fin 10, 20, F.fin 100, 100, 101, F.fin 1⟩ (by decide)
  exact ⟨h.1, h.2.2.1⟩

/-! ### C10: unguarded zero previous NAV produces a surviving infinity -/

/-- C10: the change formula is not guarded against a zero previous value:
whenever two consecutive in-window points carry values `0` then `v ≠ 0`,
and the benchmark has a bar with a non-NaN change on the second date, the
aligned output contains a row with an INFINITE `fundChange` — the drop
step removes exactly the NaN rows (first conjunct), so the infinity
survives into the rows used for metric computation. -/
theorem C10_zero_start_infinity :
    (∀ (rows : List RowF) (r : RowF),
      r ∈ dropInvalid rows ↔
        r ∈ rows ∧ r.fundChange.isNaN = false ∧ r.niftyChange.isNaN = false) ∧
    (∀ (pts : List (ℕ × ℚ)) (sd : ℕ) (nifty : List (ℕ × ℚ × ℚ))
        (pre post : List (ℕ × ℚ)) (d1 d2 : ℕ) (v o c : ℚ),
      windowOf pts sd = pre ++ (d1, 0) :: (d2, v) :: post →
      v ≠ 0 →
      (d2, o, c) ∈ nifty →
      (pctChange (F.fin c) (F.fin o)).isNaN = false →
      ∃ r ∈ alignFund pts sd nifty,
        r.date = d2 ∧ r.fundStart = F.fin 0 ∧
        (r.fundChange = F.pinf ∨ r.fundChange = F.ninf)) := by
  constructor
  · intro rows r
    constructor
    · intro h
      rcases List.mem_filter.1 h with ⟨hm, hv⟩
      have hv2 : r.fundChange.isNaN = false ∧ r.niftyChange.isNaN = false := by
        simpa using hv
      exact ⟨hm, hv2.1, hv2.2⟩
    · rintro ⟨hm, h1, h2⟩
      exact List.mem_filter.2 ⟨hm, by simp [h1, h2]⟩
  · intro pts sd nifty pre post d1 d2 v o c hwin hv hb hbn
    have h0 : fsub (F.fin v) (F.fin 0) = F.fin v := by
      simp [fsub]
    have h1 : fdiv (F.fin v) (F.fin 0) = if 0 < v then F.pinf else F.ninf := by
      simp only [fdiv]
      rw [if_pos True.intro, if_neg hv]
    have hchange : pctChange (F.fin v) (F.fin 0) = if 0 < v then F.pinf else F.ninf := by
      rw [pctChange, h0, h1]
      by_cases hvpos : 0 < v
      · rw [if_pos hvpos]
        decide
      · rw [if_neg hvpos]
        decide
    have hp : (d2, F.fin 0, v) ∈ shiftStarts (windowOf pts sd) := by
      have := mem_shiftGo_after pre post F.nan d1 d2 0 v
      rw [← hwin] at this
      exact this
    refine ⟨⟨d2, F.fin 0, v, pctChange (F.fin v) (F.fin 0), o, c,
      pctChange (F.fin c) (F.fin o)⟩, ?_, rfl, rfl, ?_⟩
    · refine List.mem_filter.2 ⟨?_, ?_⟩
      · exact (mergedRows_mem_iff _ nifty _).2
          ⟨(d2, F.fin 0, v), hp, (d2, o, c), hb, rfl, rfl⟩
      · have : (pctChange (F.fin v) (F.fin 0)).isNaN = false := by
          rw [hchange]
          by_cases hvpos : 0 < v
          · rw [if_pos hvpos]; rfl
          · rw [if_neg hvpos]; rfl
        simp [this, hbn]
    · rw [hchange]
      by_cases hvpos : 0 < v
      · rw [if_pos hvpos]; exact Or.inl rfl
      · rw [if_neg hvpos]; exact Or.inr rfl

/-- C10 (witness): history `[(0,10),(1,0),(2,5)]`, window start 0 and a
benchmark bar on date 2: a `+inf` fund change survives into the aligned
rows. -/
theorem C10_zero_start_infinity_witness :
    ∃ r ∈ alignFund [(0, 10), (1, 0), (2, 5)] 0 [(2, 100, 102)],
      r.date = 2 ∧ r.fundStart = F.fin 0 ∧
      (r.fundChange = F.pinf ∨ r.fundChange = F.ninf) :=
  C10_zero_start_infinity.2 [(0, 10), (1, 0), (2, 5)] 0 [(2, 100, 102)]
    [(0, 10)] [] 1 2 5 100 102 (by decide) (by decide) (by decide) (by decide)

/-! ### Helper lemmas: sequence matcher sanity -/

theorem jIndices_mem :
    ∀ (a b : List Char) (blo bhi i j : ℕ),
      j ∈ jIndices a b blo bhi i ↔
        j < b.length ∧ blo ≤ j ∧ j < bhi ∧ b.getD j ' ' = a.getD i ' ' := by
  intro a b blo bhi i j
  rw [jIndices, List.mem_filter, List.mem_range]
  constructor
  · rintro ⟨h1, h2⟩
    exact ⟨h1, of_decide_eq_true h2⟩
  · rintro ⟨h1, h2⟩
    exact ⟨h1, decide_eq_true h2⟩

theorem innerLoop_append :
    ∀ (i : ℕ) (old : ℕ → ℕ) (l1 l2 : List ℕ) (new : ℕ → ℕ) (best : SMatch),
      innerLoop i old (l1 ++ l2) new best
        = innerLoop i old l2 (innerLoop i old l1 new best).1 (innerLoop i old l1 new best).2 := by
  intro i old l1
  induction l1 with
  | nil => intro l2 new best; rfl
  | cons j js ih =>
    intro l2 new best
    rw [List.cons_append, innerLoop, innerLoop]
    exact ih l2 _ _

theorem innerLoop_inv :
    ∀ (js : List ℕ) (i alo blo ahi bhi : ℕ) (old new : ℕ → ℕ) (best : SMatch),
      alo ≤ i → i < ahi →
      (∀ j ∈ js, blo ≤ j ∧ j < bhi) →
      ChainBound blo (i - alo) old →
      ChainBound blo (i + 1 - alo) new →
      MatchOK alo ahi blo bhi best →
      ChainBound blo (i + 1 - alo) (innerLoop i old js new best).1 ∧
      MatchOK alo ahi blo bhi (innerLoop i old js new best).2 := by
  intro js
  induction js with
  | nil =>
    intro i alo blo ahi bhi old new best _ _ _ _ hnew hbest
    exact ⟨hnew, hbest⟩
  | cons j js2 ih =>
    intro i alo blo ahi bhi old new best hai hia hjs hold hnew hbest
    have hj : blo ≤ j ∧ j < bhi := hjs j (List.mem_cons_self j js2)
    have hjs2 : ∀ x ∈ js2, blo ≤ x ∧ x < bhi := fun x hx => hjs x (List.mem_cons_of_mem j hx)
    rw [innerLoop]
    have hk : ((if j = 0 then 0 else old (j - 1)) + 1) ≤ i + 1 - alo ∧
        ((if j = 0 then 0 else old (j - 1)) + 1) ≤ j + 1 - blo := by
      by_cases hj0 : j = 0
      · rw [if_pos hj0]
        subst hj0
        omega
      · rw [if_neg hj0]
        have := hold (j - 1)
        omega
    refine ih i alo blo ahi bhi old _ _ hai hia hjs2 hold ?_ ?_
    · intro x
      by_cases hx : x = j
      · subst hx
        simpa using hk
      · simp only [if_neg hx]
        exact hnew x
    · by_cases hlt : best.size < (if j = 0 then 0 else old (j - 1)) + 1
      · rw [if_pos hlt]
        constructor
        · intro _
          refine ⟨?_, ?_, ?_, ?_⟩ <;> simp only <;> omega
        · intro hz
          exact absurd hz (by simp only; omega)
      · rw [if_neg hlt]
        exact hbest

theorem outerLoop_inv :
    ∀ (len i0 : ℕ) (a b : List Char) (alo blo ahi bhi : ℕ) (j2len : ℕ → ℕ) (best : SMatch),
      alo ≤ i0 → i0 + len ≤ ahi →
      ChainBound blo (i0 - alo) j2len →
      MatchOK alo ahi blo bhi best →
      MatchOK alo ahi blo bhi (outerLoop a b blo bhi (List.range' i0 len) j2len best) := by
  intro len
  induction len with
  | zero =>
    intro i0 a b alo blo ahi bhi j2len best _ _ _ hbest
    rw [List.range'_zero, outerLoop]
    exact hbest
  | succ len ih =>
    intro i0 a b alo blo ahi bhi j2len best hai hlen hchain hbest
    rw [List.range'_succ, outerLoop]
    have hjs : ∀ j ∈ jIndices a b blo bhi i0, blo ≤ j ∧ j < bhi := by
      intro j hj
      have := (jIndices_mem a b blo bhi i0 j).1 hj
      exact ⟨this.2.1, this.2.2.1⟩
    have hz : ChainBound blo (i0 + 1 - alo) (fun _ => (0 : ℕ)) := by
      intro j
      constructor <;> exact Nat.zero_le _
    have hinner := innerLoop_inv (jIndices a b blo bhi i0) i0 alo blo ahi bhi j2len
      (fun _ => 0) best hai (by omega) hjs hchain hz hbest
    have hnext : ChainBound blo (i0 + 1 - alo) (innerLoop i0 j2len (jIndices a b blo bhi i0)
        (fun _ => 0) best).1 := hinner.1
    exact ih (i0 + 1) a b alo blo ahi bhi _ _ (by omega) (by omega) hnext hinner.2

theorem extendLeftF_matchOK :
    ∀ (fuel : ℕ) (a b : List Char) (alo blo ahi bhi : ℕ) (m : SMatch),
      MatchOK alo ahi blo bhi m → MatchOK alo ahi blo bhi (extendLeftF a b alo blo fuel m) := by
  intro fuel
  induction fuel with
  | zero => intro a b alo blo ahi bhi m hm; exact hm
  | succ fuel ih =>
    intro a b alo blo ahi bhi m hm
    rw [extendLeftF]
    by_cases hg : alo < m.i ∧ blo < m.j ∧ a.getD (m.i - 1) ' ' = b.getD (m.j - 1) ' '
    · rw [if_pos hg]
      refine ih a b alo blo ahi bhi _ ⟨?_, ?_⟩
      · intro _
        have hsz : m.size ≠ 0 := by
          intro hz
          have := hm.2 hz
          omega
        have := hm.1 hsz
        simp only
        omega
      · intro hz
        exact absurd hz (by simp only; omega)
    · rw [if_neg hg]
      exact hm

theorem extendRightF_matchOK :
    ∀ (fuel : ℕ) (a b : List Char) (alo blo ahi bhi : ℕ) (m : SMatch),
      MatchOK alo ahi blo bhi m → MatchOK alo ahi blo bhi (extendRightF a b ahi bhi fuel m) := by
  intro fuel
  induction fuel with
  | zero => intro a b alo blo ahi bhi m hm; exact hm
  | succ fuel ih =>
    intro a b alo blo ahi bhi m hm
    rw [extendRightF]
    by_cases hg : m.i + m.size < ahi ∧ m.j + m.size < bhi ∧
        a.getD (m.i + m.size) ' ' = b.getD (m.j + m.size) ' '
    · rw [if_pos hg]
      refine ih a b alo blo ahi bhi _ ⟨?_, ?_⟩
      · intro _
        by_cases hz : m.size = 0
        · have h2 := hm.2 hz
          simp only
          omega
        · have h1 := hm.1 hz
          simp only
          omega
      · intro hz
        exact absurd hz (by simp only; omega)
    · rw [if_neg hg]
      exact hm

theorem flm_matchOK :
    ∀ (a b : List Char) (alo ahi blo bhi : ℕ),
      MatchOK alo ahi blo bhi (findLongestMatch a b alo ahi blo bhi) := by
  intro a b alo ahi blo bhi
  have hinit : MatchOK alo ahi blo bhi ⟨alo, blo, 0⟩ :=
    ⟨fun h => absurd rfl h, fun _ => ⟨rfl, rfl⟩⟩
  have hz : ChainBound blo (alo - alo) (fun _ => (0 : ℕ)) := by
    intro j
    constructor <;> exact Nat.zero_le _
  have h0 : MatchOK alo ahi blo bhi
      (outerLoop a b blo bhi (List.range' alo (ahi - alo)) (fun _ => 0) ⟨alo, blo, 0⟩) := by
    by_cases hle : alo ≤ ahi
    · exact outerLoop_inv (ahi - alo) alo a b alo blo ahi bhi _ _ le_rfl (by omega) hz hinit
    · have hzero : ahi - alo = 0 := by omega
      rw [hzero, List.range'_zero, outerLoop]
      exact hinit
  rw [findLongestMatch]
  exact extendRightF_matchOK bhi a b alo blo ahi bhi _
    (extendLeftF_matchOK _ a b alo blo ahi bhi _ h0)

theorem matchesTotalF_le_a :
    ∀ (fuel : ℕ) (a b : List Char) (alo ahi blo bhi : ℕ),
      matchesTotalF a b fuel alo ahi blo bhi ≤ ahi - alo := by
  intro fuel
  induction fuel with
  | zero =>
    intro a b alo ahi blo bhi
    exact Nat.zero_le _
  | succ f ih =>
    intro a b alo ahi blo bhi
    rw [matchesTotalF]
    by_cases hz : (findLongestMatch a b alo ahi blo bhi).size = 0
    · rw [if_pos hz]
      exact Nat.zero_le _
    · rw [if_neg hz]
      have hs := (flm_matchOK a b alo ahi blo bhi).1 hz
      have t1 := ih a b alo (findLongestMatch a b alo ahi blo bhi).i blo
        (findLongestMatch a b alo ahi blo bhi).j
      have t2 := ih a b ((findLongestMatch a b alo ahi blo bhi).i +
          (findLongestMatch a b alo ahi blo bhi).size) ahi
        ((findLongestMatch a b alo ahi blo bhi).j +
          (findLongestMatch a b alo ahi blo bhi).size) bhi
      by_cases g1 : alo < (findLongestMatch a b alo ahi blo bhi).i ∧
          blo < (findLongestMatch a b alo ahi blo bhi).j
      · by_cases g2 : (findLongestMatch a b alo ahi blo bhi).i +
            (findLongestMatch a b alo ahi blo bhi).size < ahi ∧
            (findLongestMatch a b alo ahi blo bhi).j +
            (findLongestMatch a b alo ahi blo bhi).size < bhi
        · rw [if_pos g1, if_pos g2]
          omega
        · rw [if_pos g1, if_neg g2]
          omega
      · by_cases g2 : (findLongestMatch a b alo ahi blo bhi).i +
            (findLongestMatch a b alo ahi blo bhi).size < ahi ∧
            (findLongestMatch a b alo ahi blo bhi).j +
            (findLongestMatch a b alo ahi blo bhi).size < bhi
        · rw [if_neg g1, if_pos g2]
          omega
        · rw [if_neg g1, if_neg g2]
          omega

theorem matchesTotalF_le_b :
    ∀ (fuel : ℕ) (a b : List Char) (alo ahi blo bhi : ℕ),
      matchesTotalF a b fuel alo ahi blo bhi ≤ bhi - blo := by
  intro fuel
  induction fuel with
  | zero =>
    intro a b alo ahi blo bhi
    exact Nat.zero_le _
  | succ f ih =>
    intro a b alo ahi blo bhi
    rw [matchesTotalF]
    by_cases hz : (findLongestMatch a b alo ahi blo bhi).size = 0
    · rw [if_pos hz]
      exact Nat.zero_le _
    · rw [if_neg hz]
      have hs := (flm_matchOK a b alo ahi blo bhi).1 hz
      have t1 := ih a b alo (findLongestMatch a b alo ahi blo bhi).i blo
        (findLongestMatch a b alo ahi blo bhi).j
      have t2 := ih a b ((findLongestMatch a b alo ahi blo bhi).i +
          (findLongestMatch a b alo ahi blo bhi).size) ahi
        ((findLongestMatch a b alo ahi blo bhi).j +
          (findLongestMatch a b alo ahi blo bhi).size) bhi
      by_cases g1 : alo < (findLongestMatch a b alo ahi blo bhi).i ∧
          blo < (findLongestMatch a b alo ahi blo bhi).j
      · by_cases g2 : (findLongestMatch a b alo ahi blo bhi).i +
            (findLongestMatch a b alo ahi blo bhi).size < ahi ∧
            (findLongestMatch a b alo ahi blo bhi).j +
            (findLongestMatch a b alo ahi blo bhi).size < bhi
        · rw [if_pos g1, if_pos g2]
          omega
        · rw [if_pos g1, if_neg g2]
          omega
      · by_cases g2 : (findLongestMatch a b alo ahi blo bhi).i +
            (findLongestMatch a b alo ahi blo bhi).size < ahi ∧
            (findLongestMatch a b alo ahi blo bhi).j +
            (findLongestMatch a b alo ahi blo bhi).size < bhi
        · rw [if_neg g1, if_pos g2]
          omega
        · rw [if_neg g1, if_neg g2]
          omega

theorem seqRatioQ_nonneg : ∀ (a b : List Char), 0 ≤ seqRatioQ a b := by
  intro a b
  rw [seqRatioQ]
  by_cases h : a.length + b.length = 0
  · rw [if_pos h]
    norm_num
  · rw [if_neg h]
    apply div_nonneg
    · positivity
    · positivity

theorem seqRatioQ_le_one : ∀ (a b : List Char), seqRatioQ a b ≤ 1 := by
  intro a b
  rw [seqRatioQ]
  by_cases h : a.length + b.length = 0
  · rw [if_pos h]
  · rw [if_neg h]
    have hM1 : matchesTotalF a b a.length 0 a.length 0 b.length ≤ a.length := by
      have := matchesTotalF_le_a a.length a b 0 a.length 0 b.length
      omega
    have hM2 : matchesTotalF a b a.length 0 a.length 0 b.length ≤ b.length := by
      have := matchesTotalF_le_b a.length a b 0 a.length 0 b.length
      omega
    have hpos : (0 : ℚ) < (a.length : ℚ) + (b.length : ℚ) := by
      have : 0 < a.length + b.length := Nat.pos_of_ne_zero h
      exact_mod_cast this
    rw [div_le_one hpos]
    have : 2 * matchesTotalF a b a.length 0 a.length 0 b.length ≤ a.length + b.length := by
      omega
    exact_mod_cast this

theorem similar_nonneg : ∀ (a b : List Char), 0 ≤ similar a b := by
  intro a b
  exact seqRatioQ_nonneg _ _

theorem similar_le_one : ∀ (a b : List Char), similar a b ≤ 1 := by
  intro a b
  exact seqRatioQ_le_one _ _

/-! ### Helper lemmas: the matcher on two equal strings -/

theorem jIndices_sorted :
    ∀ (a b : List Char) (blo bhi i : ℕ),
      (jIndices a b blo bhi i).Pairwise (fun x y => x < y) := by
  intro a b blo bhi i
  exact List.Pairwise.filter _ (List.pairwise_lt_range b.length)

theorem innerLoop_map_stable :
    ∀ (js : List ℕ) (i : ℕ) (old new : ℕ → ℕ) (best : SMatch) (x : ℕ),
      x ∉ js → (innerLoop i old js new best).1 x = new x := by
  intro js
  induction js with
  | nil => intro i old new best x _; rfl
  | cons j js2 ih =>
    intro i old new best x hx
    have hxj : x ≠ j := fun h => hx (h ▸ List.mem_cons_self j js2)
    have hxs : x ∉ js2 := fun h => hx (List.mem_cons_of_mem j h)
    calc (innerLoop i old (j :: js2) new best).1 x
        = (innerLoop i old js2
            (fun y => if y = j then (if j = 0 then 0 else old (j - 1)) + 1 else new y)
            (if best.size < (if j = 0 then 0 else old (j - 1)) + 1 then
              ⟨i + 1 - ((if j = 0 then 0 else old (j - 1)) + 1),
               j + 1 - ((if j = 0 then 0 else old (j - 1)) + 1),
               (if j = 0 then 0 else old (j - 1)) + 1⟩
            else best)).1 x := rfl
      _ = (if x = j then (if j = 0 then 0 else old (j - 1)) + 1 else new x) := ih _ _ _ _ x hxs
      _ = new x := if_neg hxj

theorem innerLoop_no_update :
    ∀ (js : List ℕ) (i : ℕ) (old new : ℕ → ℕ) (best : SMatch),
      (∀ j ∈ js, (if j = 0 then 0 else old (j - 1)) + 1 ≤ best.size) →
      (innerLoop i old js new best).2 = best := by
  intro js
  induction js with
  | nil => intro i old new best _; rfl
  | cons j js2 ih =>
    intro i old new best h
    have hk := h j (List.mem_cons_self j js2)
    have hcond : ¬ (best.size < (if j = 0 then 0 else old (j - 1)) + 1) := by omega
    calc (innerLoop i old (j :: js2) new best).2
        = (innerLoop i old js2
            (fun y => if y = j then (if j = 0 then 0 else old (j - 1)) + 1 else new y)
            (if best.size < (if j = 0 then 0 else old (j - 1)) + 1 then
              ⟨i + 1 - ((if j = 0 then 0 else old (j - 1)) + 1),
               j + 1 - ((if j = 0 then 0 else old (j - 1)) + 1),
               (if j = 0 then 0 else old (j - 1)) + 1⟩
            else best)).2 := rfl
      _ = (innerLoop i old js2
            (fun y => if y = j then (if j = 0 then 0 else old (j - 1)) + 1 else new y)
            best).2 := by rw [if_neg hcond]
      _ = best := ih _ _ _ _ (fun x hx => h x (List.mem_cons_of_mem j hx))

theorem innerLoop_diag :
    ∀ (a : List Char) (alo ahi i : ℕ) (old : ℕ → ℕ),
      alo ≤ i → i < ahi → ahi ≤ a.length →
      ChainBound alo (i - alo) old →
      (i = alo ∨ old (i - 1) = i - alo) →
      (innerLoop i old (jIndices a a alo ahi i) (fun _ => 0) ⟨alo, alo, i - alo⟩).2
          = ⟨alo, alo, i + 1 - alo⟩ ∧
      (innerLoop i old (jIndices a a alo ahi i) (fun _ => 0) ⟨alo, alo, i - alo⟩).1 i
          = i + 1 - alo := by
  intro a alo ahi i old hai hia hlen hchain hdiag
  have hmem : i ∈ jIndices a a alo ahi i :=
    (jIndices_mem a a alo ahi i i).2 ⟨by omega, hai, hia, rfl⟩
  obtain ⟨s, t, hsplit⟩ := List.append_of_mem hmem
  have hpw : (jIndices a a alo ahi i).Pairwise (fun x y => x < y) := jIndices_sorted a a alo ahi i
  rw [hsplit] at hpw
  rw [List.pairwise_append] at hpw
  obtain ⟨hpw_s, hpw_it, hcross⟩ := hpw
  have hs_lt : ∀ x ∈ s, x < i := fun x hx => hcross x hx i (List.mem_cons_self i t)
  have ht_gt : ∀ y ∈ t, i < y := (List.pairwise_cons.1 hpw_it).1
  have hbounds : ∀ j ∈ jIndices a a alo ahi i, alo ≤ j ∧ j < ahi := by
    intro j hj
    have := (jIndices_mem a a alo ahi i j).1 hj
    exact ⟨this.2.1, this.2.2.1⟩
  have hs_mem : ∀ x ∈ s, x ∈ jIndices a a alo ahi i := by
    intro x hx
    rw [hsplit]
    exact List.mem_append.2 (Or.inl hx)
  have ht_mem : ∀ x ∈ t, x ∈ jIndices a a alo ahi i := by
    intro x hx
    rw [hsplit]
    exact List.mem_append.2 (Or.inr (List.mem_cons_of_mem i hx))
  have hkI : (if i = 0 then 0 else old (i - 1)) + 1 = i - alo + 1 := by
    rcases hdiag with h | h
    · subst h
      by_cases h0 : i = 0
      · rw [if_pos h0]
        omega
      · rw [if_neg h0]
        have := (hchain (i - 1)).1
        omega
    · by_cases h0 : i = 0
      · rw [if_pos h0]
        omega
      · rw [if_neg h0]
        omega
  -- fold over the positions before the diagonal: no update
  have hstep1 : (innerLoop i old s (fun _ => 0) ⟨alo, alo, i - alo⟩).2 = ⟨alo, alo, i - alo⟩ := by
    apply innerLoop_no_update
    intro j hj
    have hji : j < i := hs_lt j hj
    have hjb : alo ≤ j ∧ j < ahi := hbounds j (hs_mem j hj)
    by_cases h0 : j = 0
    · rw [if_pos h0]
      simp only
      omega
    · rw [if_neg h0]
      have := (hchain (j - 1)).2
      simp only
      omega
  -- the diagonal step fires and makes the best block (alo, alo, i + 1 - alo)
  have hbest2 : (if (⟨alo, alo, i - alo⟩ : SMatch).size < (if i = 0 then 0 else old (i - 1)) + 1 then
        (⟨i + 1 - ((if i = 0 then 0 else old (i - 1)) + 1),
          i + 1 - ((if i = 0 then 0 else old (i - 1)) + 1),
          (if i = 0 then 0 else old (i - 1)) + 1⟩ : SMatch)
      else ⟨alo, alo, i - alo⟩) = ⟨alo, alo, i + 1 - alo⟩ := by
    rw [hkI]
    have hlt : (⟨alo, alo, i - alo⟩ : SMatch).size < i - alo + 1 := by
      simp only
      omega
    rw [if_pos hlt]
    have e1 : i + 1 - (i - alo + 1) = alo := by omega
    have e3 : i - alo + 1 = i + 1 - alo := by omega
    rw [e1, e3]
  -- fold over the positions after the diagonal: no update, map at i stable
  have ht_no : ∀ (new2 : ℕ → ℕ),
      (innerLoop i old t new2 ⟨alo, alo, i + 1 - alo⟩).2 = ⟨alo, alo, i + 1 - alo⟩ := by
    intro new2
    apply innerLoop_no_update
    intro j hj
    have hji : i < j := ht_gt j hj
    have h0 : j ≠ 0 := by omega
    rw [if_neg h0]
    have := (hchain (j - 1)).1
    simp only
    omega
  rw [hsplit, innerLoop_append, hstep1]
  have hr1 : (innerLoop i old (i :: t)
        (innerLoop i old s (fun _ => 0) ⟨alo, alo, i - alo⟩).1 ⟨alo, alo, i - alo⟩)
      = innerLoop i old t
          (fun y => if y = i then (if i = 0 then 0 else old (i - 1)) + 1
            else (innerLoop i old s (fun _ => 0) ⟨alo, alo, i - alo⟩).1 y)
          (if (⟨alo, alo, i - alo⟩ : SMatch).size < (if i = 0 then 0 else old (i - 1)) + 1 then
            ⟨i + 1 - ((if i = 0 then 0 else old (i - 1)) + 1),
              i + 1 - ((if i = 0 then 0 else old (i - 1)) + 1),
              (if i = 0 then 0 else old (i - 1)) + 1⟩
          else ⟨alo, alo, i - alo⟩) := rfl
  rw [hr1, hbest2]
  have hnotint : i ∉ t := fun h => absurd (ht_gt i h) (by omega)
  constructor
  · exact ht_no _
  · rw [innerLoop_map_stable t i old _ _ i hnotint]
    rw [if_pos rfl, hkI]
    omega

theorem outerLoop_diag :
    ∀ (len : ℕ) (a : List Char) (alo ahi i0 : ℕ) (j2len : ℕ → ℕ) (best : SMatch),
      alo ≤ i0 → i0 + len = ahi → ahi ≤ a.length →
      ChainBound alo (i0 - alo) j2len →
      (i0 = alo ∨ j2len (i0 - 1) = i0 - alo) →
      best = ⟨alo, alo, i0 - alo⟩ →
      outerLoop a a alo ahi (List.range' i0 len) j2len best = ⟨alo, alo, ahi - alo⟩ := by
  intro len
  induction len with
  | zero =>
    intro a alo ahi i0 j2len best hai hlen _ _ _ hbest
    rw [List.range'_zero, outerLoop, hbest]
    have : i0 = ahi := by omega
    rw [this]
  | succ len ih =>
    intro a alo ahi i0 j2len best hai hlen hal hchain hdiag hbest
    rw [List.range'_succ, outerLoop, hbest]
    have hia : i0 < ahi := by omega
    have hd := innerLoop_diag a alo ahi i0 j2len hai hia hal hchain hdiag
    have hz : ChainBound alo (i0 + 1 - alo)
        (innerLoop i0 j2len (jIndices a a alo ahi i0) (fun _ => 0) ⟨alo, alo, i0 - alo⟩).1 := by
      have hjs : ∀ j ∈ jIndices a a alo ahi i0, alo ≤ j ∧ j < ahi := by
        intro j hj
        have := (jIndices_mem a a alo ahi i0 j).1 hj
        exact ⟨this.2.1, this.2.2.1⟩
      have hzero : ChainBound alo (i0 + 1 - alo) (fun _ => (0 : ℕ)) := by
        intro j
        constructor <;> exact Nat.zero_le _
      have hok : MatchOK alo ahi alo ahi (⟨alo, alo, i0 - alo⟩ : SMatch) := by
        constructor
        · intro hsz
          simp only at hsz ⊢
          omega
        · intro _
          exact ⟨rfl, rfl⟩
      exact (innerLoop_inv (jIndices a a alo ahi i0) i0 alo alo ahi ahi j2len
        (fun _ => 0) ⟨alo, alo, i0 - alo⟩ hai hia hjs hchain hzero hok).1
    rw [hd.1]
    refine ih a alo ahi (i0 + 1) _ _ (by omega) (by omega) hal ?_ ?_ rfl
    · intro j
      have := hz j
      omega
    · right
      have heq : i0 + 1 - 1 = i0 := by omega
      rw [heq, hd.2]

theorem extendLeftF_stop :
    ∀ (fuel : ℕ) (a b : List Char) (alo blo : ℕ) (m : SMatch),
      ¬ (alo < m.i ∧ blo < m.j ∧ a.getD (m.i - 1) ' ' = b.getD (m.j - 1) ' ') →
      extendLeftF a b alo blo fuel m = m := by
  intro fuel a b alo blo m hg
  cases fuel with
  | zero => rfl
  | succ f => rw [extendLeftF, if_neg hg]

theorem extendRightF_stop :
    ∀ (fuel : ℕ) (a b : List Char) (ahi bhi : ℕ) (m : SMatch),
      ¬ (m.i + m.size < ahi ∧ m.j + m.size < bhi ∧
          a.getD (m.i + m.size) ' ' = b.getD (m.j + m.size) ' ') →
      extendRightF a b ahi bhi fuel m = m := by
  intro fuel a b ahi bhi m hg
  cases fuel with
  | zero => rfl
  | succ f => rw [extendRightF, if_neg hg]

theorem flm_diag :
    ∀ (a : List Char) (alo ahi : ℕ), ahi ≤ a.length →
      findLongestMatch a a alo ahi alo ahi = ⟨alo, alo, ahi - alo⟩ := by
  intro a alo ahi hal
  have houter : outerLoop a a alo ahi (List.range' alo (ahi - alo)) (fun _ => 0) ⟨alo, alo, 0⟩
      = ⟨alo, alo, ahi - alo⟩ := by
    by_cases hle : alo ≤ ahi
    · refine outerLoop_diag (ahi - alo) a alo ahi alo _ _ le_rfl (by omega) hal ?_ (Or.inl rfl) ?_
      · intro j
        constructor <;> exact Nat.zero_le _
      · have : alo - alo = 0 := by omega
        rw [this]
    · have hzero : ahi - alo = 0 := by omega
      rw [hzero, List.range'_zero, outerLoop]
  rw [findLongestMatch, houter]
  have hleft : extendLeftF a a alo alo (⟨alo, alo, ahi - alo⟩ : SMatch).i
      ⟨alo, alo, ahi - alo⟩ = ⟨alo, alo, ahi - alo⟩ := by
    apply extendLeftF_stop
    rintro ⟨h1, _, _⟩
    simp only at h1
    omega
  rw [hleft]
  apply extendRightF_stop
  rintro ⟨h1, _, _⟩
  simp only at h1
  omega

theorem matchesTotalF_diag :
    ∀ (f : ℕ) (a : List Char) (alo ahi : ℕ), ahi ≤ a.length →
      matchesTotalF a a (f + 1) alo ahi alo ahi = ahi - alo := by
  intro f a alo ahi hal
  rw [matchesTotalF, flm_diag a alo ahi hal]
  by_cases hz : (⟨alo, alo, ahi - alo⟩ : SMatch).size = 0
  · rw [if_pos hz]
    simp only at hz
    omega
  · rw [if_neg hz]
    have hg1 : ¬ (alo < (⟨alo, alo, ahi - alo⟩ : SMatch).i ∧
        alo < (⟨alo, alo, ahi - alo⟩ : SMatch).j) := by
      rintro ⟨h1, _⟩
      simp only at h1
      omega
    have hg2 : ¬ ((⟨alo, alo, ahi - alo⟩ : SMatch).i + (⟨alo, alo, ahi - alo⟩ : SMatch).size < ahi ∧
        (⟨alo, alo, ahi - alo⟩ : SMatch).j + (⟨alo, alo, ahi - alo⟩ : SMatch).size < ahi) := by
      rintro ⟨h1, _⟩
      simp only at h1
      omega
    rw [if_neg hg1, if_neg hg2]
    simp only
    omega

theorem seqRatioQ_self : ∀ (s : List Char), seqRatioQ s s = 1 := by
  intro s
  rw [seqRatioQ]
  by_cases h : s.length + s.length = 0
  · rw [if_pos h]
  · rw [if_neg h]
    have hn : s.length ≠ 0 := by omega
    obtain ⟨n, hn2⟩ : ∃ n, s.length = n + 1 := ⟨s.length - 1, by omega⟩
    have hM : matchesTotalF s s s.length 0 s.length 0 s.length = s.length := by
      rw [hn2]
      have := matchesTotalF_diag n s 0 (n + 1) (by omega)
      simpa using this
    rw [hM]
    rw [div_eq_one_iff_eq]
    · ring
    · have hpos : (0 : ℚ) < (s.length : ℚ) + (s.length : ℚ) := by
        have : 0 < s.length + s.length := by omega
        exact_mod_cast this
      exact ne_of_gt hpos

theorem similar_of_lower_eq :
    ∀ (a b : List Char), lowerStr a = lowerStr b → similar a b = 1 := by
  intro a b h
  rw [similar, h]
  exact seqRatioQ_self _

/-! ### Helper lemmas: strip, substring and the selection folds -/

theorem exists_stripWs_decomp :
    ∀ l : List Char, ∃ u v, l = u ++ (stripWs l ++ v) := by
  intro l
  refine ⟨l.takeWhile Char.isWhitespace,
    ((stripL l).reverse.takeWhile Char.isWhitespace).reverse, ?_⟩
  have h2 : stripL l
      = stripWs l ++ ((stripL l).reverse.takeWhile Char.isWhitespace).reverse := by
    calc stripL l = (stripL l).reverse.reverse := (List.reverse_reverse _).symm
      _ = ((stripL l).reverse.takeWhile Char.isWhitespace
            ++ (stripL l).reverse.dropWhile Char.isWhitespace).reverse := by
          rw [List.takeWhile_append_dropWhile]
      _ = ((stripL l).reverse.dropWhile Char.isWhitespace).reverse
            ++ ((stripL l).reverse.takeWhile Char.isWhitespace).reverse := by
          rw [List.reverse_append]
      _ = stripWs l ++ ((stripL l).reverse.takeWhile Char.isWhitespace).reverse := rfl
  calc l = l.takeWhile Char.isWhitespace ++ l.dropWhile Char.isWhitespace := by
        rw [List.takeWhile_append_dropWhile]
    _ = l.takeWhile Char.isWhitespace ++ stripL l := rfl
    _ = l.takeWhile Char.isWhitespace
          ++ (stripWs l ++ ((stripL l).reverse.takeWhile Char.isWhitespace).reverse) := by
        rw [← h2]

theorem containsSub_intro :
    ∀ (sub u v : List Char), containsSub sub (u ++ (sub ++ v)) = true := by
  intro sub u v
  rw [containsSub]
  refine List.any_eq_true.2 ⟨u.length, ?_, ?_⟩
  · rw [List.mem_range, List.length_append]
    omega
  · apply decide_eq_true
    rw [List.drop_left, List.take_left]

theorem containsSub_strip_self :
    ∀ l : List Char, containsSub (stripWs l) l = true := by
  intro l
  obtain ⟨u, v, h⟩ := exists_stripWs_decomp l
  have hc := containsSub_intro (stripWs l) u v
  rw [← h] at hc
  exact hc

theorem maxBySim_spec :
    ∀ (q : List Char) (l : List Scheme) (b : Scheme),
      (maxBySim q l b = b ∧ ∀ x ∈ l, similar q x.schemeName ≤ similar q b.schemeName) ∨
      (similar q b.schemeName < similar q (maxBySim q l b).schemeName ∧
        ∃ pre post, l = pre ++ maxBySim q l b :: post ∧
          (∀ x ∈ pre, similar q x.schemeName < similar q (maxBySim q l b).schemeName) ∧
          (∀ x ∈ post, similar q x.schemeName ≤ similar q (maxBySim q l b).schemeName)) := by
  intro q l
  induction l with
  | nil =>
    intro b
    left
    exact ⟨rfl, by simp⟩
  | cons f fs ih =>
    intro b
    by_cases hc : similar q b.schemeName < similar q f.schemeName
    · have hred : maxBySim q (f :: fs) b = maxBySim q fs f := by
        rw [maxBySim, if_pos hc]
      rcases ih f with ⟨heq, hall⟩ | ⟨hlt, pre, post, hsp, hpre, hpost⟩
      · right
        rw [hred, heq]
        exact ⟨hc, [], fs, rfl, by simp, hall⟩
      · right
        rw [hred]
        refine ⟨lt_trans hc hlt, f :: pre, post, by rw [List.cons_append, ← hsp], ?_, hpost⟩
        intro x hx
        rcases List.mem_cons.1 hx with h | h
        · rw [h]
          exact hlt
        · exact hpre x h
    · have hred : maxBySim q (f :: fs) b = maxBySim q fs b := by
        rw [maxBySim, if_neg hc]
      rcases ih b with ⟨heq, hall⟩ | ⟨hlt, pre, post, hsp, hpre, hpost⟩
      · left
        rw [hred, heq]
        refine ⟨rfl, ?_⟩
        intro x hx
        rcases List.mem_cons.1 hx with h | h
        · rw [h]
          exact le_of_not_lt hc
        · exact hall x h
      · right
        rw [hred]
        refine ⟨hlt, f :: pre, post, by rw [List.cons_append, ← hsp], ?_, hpost⟩
        intro x hx
        rcases List.mem_cons.1 hx with h | h
        · rw [h]
          exact lt_of_le_of_lt (le_of_not_lt hc) hlt
        · exact hpre x h

theorem maxBySim_ge :
    ∀ (q : List Char) (l : List Scheme) (b x : Scheme),
      x ∈ b :: l → similar q x.schemeName ≤ similar q (maxBySim q l b).schemeName := by
  intro q l b x hx
  rcases maxBySim_spec q l b with ⟨heq, hall⟩ | ⟨hlt, pre, post, hsp, hpre, hpost⟩
  · rw [heq]
    rcases List.mem_cons.1 hx with h | h
    · rw [h]
    · exact hall x h
  · rcases List.mem_cons.1 hx with h | h
    · rw [h]
      exact le_of_lt hlt
    · rw [hsp] at h
      rcases List.mem_append.1 h with h2 | h2
      · exact le_of_lt (hpre x h2)
      · rcases List.mem_cons.1 h2 with h3 | h3
        · rw [h3]
        · exact hpost x h3

theorem fuzzyScan_spec :
    ∀ (q : List Char) (l : List Scheme) (b : Option Scheme) (s : ℚ),
      (fuzzyScan q l b s = (b, s) ∧ ∀ x ∈ l, similar q x.schemeName ≤ s) ∨
      (∃ m pre post, fuzzyScan q l b s = (some m, similar q m.schemeName) ∧
        l = pre ++ m :: post ∧ s < similar q m.schemeName ∧
        (∀ x ∈ pre, similar q x.schemeName < similar q m.schemeName) ∧
        (∀ x ∈ post, similar q x.schemeName ≤ similar q m.schemeName)) := by
  intro q l
  induction l with
  | nil =>
    intro b s
    left
    exact ⟨rfl, by simp⟩
  | cons f fs ih =>
    intro b s
    by_cases hc : s < similar q f.schemeName
    · have hred : fuzzyScan q (f :: fs) b s
          = fuzzyScan q fs (some f) (similar q f.schemeName) := by
        rw [fuzzyScan, if_pos hc]
      rcases ih (some f) (similar q f.schemeName) with ⟨heq, hall⟩ |
        ⟨m, pre, post, heq, hsp, hlt, hpre, hpost⟩
      · right
        exact ⟨f, [], fs, by rw [hred, heq], rfl, hc, by simp, hall⟩
      · right
        refine ⟨m, f :: pre, post, by rw [hred, heq], by rw [hsp, List.cons_append], lt_trans hc hlt, ?_, hpost⟩
        intro x hx
        rcases List.mem_cons.1 hx with h | h
        · rw [h]
          exact hlt
        · exact hpre x h
    · have hred : fuzzyScan q (f :: fs) b s = fuzzyScan q fs b s := by
        rw [fuzzyScan, if_neg hc]
      rcases ih b s with ⟨heq, hall⟩ | ⟨m, pre, post, heq, hsp, hlt, hpre, hpost⟩
      · left
        refine ⟨by rw [hred, heq], ?_⟩
        intro x hx
        rcases List.mem_cons.1 hx with h | h
        · rw [h]
          exact le_of_not_lt hc
        · exact hall x h
      · right
        refine ⟨m, f :: pre, post, by rw [hred, heq], by rw [hsp, List.cons_append], hlt, ?_, hpost⟩
        intro x hx
        rcases List.mem_cons.1 hx with h | h
        · rw [h]
          exact lt_of_le_of_lt (le_of_not_lt hc) hlt
        · exact hpre x h

/-! ### C5: matcher branch behavior -/

/-- C5 (counterexample): with the empty query and the one-entry catalog
`["x"]`, the substring pass matches (the empty string is a substring of
everything) and the matcher returns that entry with score 1.0, although
no entry has similarity exceeding the initial 0 — so "returns none
exactly when the catalog is empty or no entry's score exceeds the initial
0" fails as a biconditional. -/
theorem C5_counterexample :
    find_best_scheme [⟨0, ['x']⟩] [] = (some ⟨0, ['x']⟩, 1) ∧
    (∀ f ∈ ([⟨0, ['x']⟩] : List Scheme), similar [] f.schemeName ≤ 0) ∧
    (find_best_scheme [⟨0, ['x']⟩] []).1 ≠ none := by
  refine ⟨by decide, by decide, by decide⟩

/-- C5 (amended): exactly one substring hit is returned with score 1.0;
several hits are resolved to the first hit of maximal similarity (later
equal scores do not replace it) with that similarity as score; with no
substring hit the exhaustive scan returns the first entry of maximal
similarity provided its similarity strictly exceeds 0; and the matcher
returns none exactly when there is no substring hit and no catalog entry
has similarity exceeding the initial 0 (in particular on an empty
catalog). -/
theorem C5_matcher_spec :
    ∀ (fund_list : List Scheme) (q : List Char),
      (∀ f, substrMatches fund_list q = [f] → find_best_scheme fund_list q = (some f, 1)) ∧
      (∀ f g rest, substrMatches fund_list q = f :: g :: rest →
        ∃ m, find_best_scheme fund_list q = (some m, similar q m.schemeName) ∧
          FirstMaxSim q (substrMatches fund_list q) m) ∧
      (substrMatches fund_list q = [] → ∀ m, (find_best_scheme fund_list q).1 = some m →
        (find_best_scheme fund_list q).2 = similar q m.schemeName ∧
        0 < similar q m.schemeName ∧ FirstMaxSim q fund_list m) ∧
      ((find_best_scheme fund_list q).1 = none ↔
        substrMatches fund_list q = [] ∧ ∀ f ∈ fund_list, similar q f.schemeName ≤ 0) := by
  intro fund_list q
  rcases hsub : substrMatches fund_list q with _ | ⟨f0, _ | ⟨g0, rest0⟩⟩
  · -- no substring hit: the fuzzy scan decides
    have hfb : find_best_scheme fund_list q = fuzzyScan q fund_list none 0 := by
      simp only [find_best_scheme, hsub]
    refine ⟨?_, ?_, ?_, ?_⟩
    · intro f hf
      exact absurd hf (by simp)
    · intro f g rest hf
      exact absurd hf (by simp)
    · intro _ m hm
      rcases fuzzyScan_spec q fund_list none 0 with ⟨heq, hall⟩ |
        ⟨m2, pre, post, heq, hsp, hlt, hpre, hpost⟩
      · rw [hfb, heq] at hm
        exact absurd hm (by simp)
      · rw [hfb, heq] at hm
        have hm2 : m2 = m := by simpa using hm
        subst hm2
        rw [hfb, heq]
        exact ⟨rfl, hlt, pre, post, hsp, hpre, hpost⟩
    · constructor
      · intro hnone
        rcases fuzzyScan_spec q fund_list none 0 with ⟨heq, hall⟩ |
          ⟨m2, pre, post, heq, hsp, hlt, hpre, hpost⟩
        · exact ⟨rfl, hall⟩
        · rw [hfb, heq] at hnone
          exact absurd hnone (by simp)
      · rintro ⟨_, hall⟩
        rcases fuzzyScan_spec q fund_list none 0 with ⟨heq, _⟩ |
          ⟨m2, pre, post, heq, hsp, hlt, hpre, hpost⟩
        · rw [hfb, heq]
        · have hm2 : m2 ∈ fund_list := by
            rw [hsp]
            exact List.mem_append.2 (Or.inr (List.mem_cons_self m2 post))
          exact absurd hlt (not_lt.2 (hall m2 hm2))
  · -- exactly one substring hit
    have hfb : find_best_scheme fund_list q = (some f0, 1) := by
      simp only [find_best_scheme, hsub]
    refine ⟨?_, ?_, ?_, ?_⟩
    · intro f hf
      have : f0 = f := by simpa using hf
      rw [hfb, this]
    · intro f g rest hf
      exact absurd hf (by simp)
    · intro hemp
      exact absurd hemp (by simp)
    · constructor
      · intro hnone
        rw [hfb] at hnone
        exact absurd hnone (by simp)
      · rintro ⟨hemp, _⟩
        exact absurd hemp (by simp)
  · -- several substring hits
    have hfb : find_best_scheme fund_list q
        = (some (maxBySim q (g0 :: rest0) f0),
            similar q (maxBySim q (g0 :: rest0) f0).schemeName) := by
      simp only [find_best_scheme, hsub]
    refine ⟨?_, ?_, ?_, ?_⟩
    · intro f hf
      exact absurd hf (by simp)
    · intro f g rest _
      refine ⟨maxBySim q (g0 :: rest0) f0, hfb, ?_⟩
      rcases maxBySim_spec q (g0 :: rest0) f0 with ⟨heq, hall⟩ |
        ⟨hlt, pre, post, hsp, hpre, hpost⟩
      · rw [heq]
        refine ⟨[], g0 :: rest0, rfl, by simp, ?_⟩
        exact hall
      · refine ⟨f0 :: pre, post, by rw [List.cons_append, ← hsp], ?_, hpost⟩
        intro x hx
        rcases List.mem_cons.1 hx with h | h
        · rw [h]
          exact hlt
        · exact hpre x h
    · intro hemp
      exact absurd hemp (by simp)
    · constructor
      · intro hnone
        rw [hfb] at hnone
        exact absurd hnone (by simp)
      · rintro ⟨hemp, _⟩
        exact absurd hemp (by simp)

/-- C5 (witness): a one-entry catalog hit exactly once by the query is
returned with score 1.0 through the substring branch. -/
theorem C5_matcher_spec_witness :
    find_best_scheme [⟨5, ['a', 'b']⟩] ['a', 'b'] = (some ⟨5, ['a', 'b']⟩, 1) :=
  (C5_matcher_spec [⟨5, ['a', 'b']⟩] ['a', 'b']).1 ⟨5, ['a', 'b']⟩ (by decide)

/-! ### C6: score bounds and the case-folded identity query -/

/-- C6: every score the matcher returns lies in `[0, 1]`, and a query
that equals a catalog entry's name after case-folding makes the substring
pass non-empty and yields score exactly 1.0 through it. -/
theorem C6_score_bounds :
    ∀ (fund_list : List Scheme) (q : List Char),
      (0 ≤ (find_best_scheme fund_list q).2 ∧ (find_best_scheme fund_list q).2 ≤ 1) ∧
      (∀ f ∈ fund_list, lowerStr q = lowerStr f.schemeName →
        substrMatches fund_list q ≠ [] ∧ (find_best_scheme fund_list q).2 = 1) := by
  intro fund_list q
  constructor
  · rcases hsub : substrMatches fund_list q with _ | ⟨f0, _ | ⟨g0, rest0⟩⟩
    · have hfb : find_best_scheme fund_list q = fuzzyScan q fund_list none 0 := by
        simp only [find_best_scheme, hsub]
      rcases fuzzyScan_spec q fund_list none 0 with ⟨heq, _⟩ |
        ⟨m, pre, post, heq, _, _, _, _⟩
      · rw [hfb, heq]
        norm_num
      · rw [hfb, heq]
        exact ⟨similar_nonneg _ _, similar_le_one _ _⟩
    · have hfb : find_best_scheme fund_list q = (some f0, 1) := by
        simp only [find_best_scheme, hsub]
      rw [hfb]
      norm_num
    · have hfb : find_best_scheme fund_list q
          = (some (maxBySim q (g0 :: rest0) f0),
              similar q (maxBySim q (g0 :: rest0) f0).schemeName) := by
        simp only [find_best_scheme, hsub]
      rw [hfb]
      exact ⟨similar_nonneg _ _, similar_le_one _ _⟩
  · intro f hf hlow
    have hsim1 : similar q f.schemeName = 1 := similar_of_lower_eq _ _ hlow
    have hmem : f ∈ substrMatches fund_list q := by
      rw [substrMatches, List.mem_filter]
      refine ⟨hf, ?_⟩
      rw [← hlow]
      exact containsSub_strip_self (lowerStr q)
    refine ⟨List.ne_nil_of_mem hmem, ?_⟩
    rcases hsub : substrMatches fund_list q with _ | ⟨f0, _ | ⟨g0, rest0⟩⟩
    · rw [hsub] at hmem
      exact absurd hmem (by simp)
    · simp only [find_best_scheme, hsub]
    · have hfb : find_best_scheme fund_list q
          = (some (maxBySim q (g0 :: rest0) f0),
              similar q (maxBySim q (g0 :: rest0) f0).schemeName) := by
        simp only [find_best_scheme, hsub]
      rw [hfb]
      have hmem2 : f ∈ f0 :: g0 :: rest0 := by
        rw [← hsub]
        exact hmem
      have hge : similar q f.schemeName
          ≤ similar q (maxBySim q (g0 :: rest0) f0).schemeName :=
        maxBySim_ge q (g0 :: rest0) f0 f hmem2
      have hle := similar_le_one q (maxBySim q (g0 :: rest0) f0).schemeName
      have h1 : 1 ≤ similar q (maxBySim q (g0 :: rest0) f0).schemeName := hsim1 ▸ hge
      exact le_antisymm hle h1

/-- C6 (witness): catalog `["Ab"]` and query `"aB"` are identical after
case-folding; the substring pass is non-empty and the returned score is
exactly 1.0. -/
theorem C6_score_bounds_witness :
    substrMatches [⟨1, ['A', 'b']⟩] ['a', 'B'] ≠ [] ∧
    (find_best_scheme [⟨1, ['A', 'b']⟩] ['a', 'B']).2 = 1 :=
  (C6_score_bounds [⟨1, ['A', 'b']⟩] ['a', 'B']).2 ⟨1, ['A', 'b']⟩ (by decide) (by decide)

/-! ### C2: behavior label thresholds -/

/-- C2 (counterexample): the "otherwise" label emitted by the code is the
string `"Low/Neutral Corr"`, not `"Low/Neutral Correlation"` as the claim
states; at the concrete correlation 0 the code emits the former. -/
theorem C2_counterexample :
    behaviorOf (some 0) = "Low/Neutral Corr" ∧
      behaviorOf (some 0) ≠ "Low/Neutral Correlation" := by
  constructor
  · decide
  · decide

/-- C2 (amended): for a defined correlation `c` the label is
`"With Market"` when `c ≥ 0.6`, `"Against Market"` when `c ≤ -0.2` (the
`≥ 0.6` branch is tested first), and `"Low/Neutral Corr"` otherwise; an
undefined correlation yields `"Insufficient Data"`. -/
theorem C2_behavior_thresholds :
    (∀ c : ℚ,
      (3/5 ≤ c → behaviorOf (some c) = "With Market") ∧
      (c ≤ -(1/5) → behaviorOf (some c) = "Against Market") ∧
      (-(1/5) < c → c < 3/5 → behaviorOf (some c) = "Low/Neutral Corr")) ∧
    behaviorOf none = "Insufficient Data" := by
  refine ⟨fun c => ⟨fun h => ?_, fun h => ?_, fun h1 h2 => ?_⟩, rfl⟩
  · simp only [behaviorOf]
    rw [if_pos h]
  · have n1 : ¬ (3/5 ≤ c) := by linarith
    simp only [behaviorOf]
    rw [if_neg n1, if_pos h]
  · have n1 : ¬ (3/5 ≤ c) := by linarith
    have n2 : ¬ (c ≤ -(1/5)) := by linarith
    simp only [behaviorOf]
    rw [if_neg n1, if_neg n2]

/-- C2 (witness): the three threshold branches at the concrete
correlations 1, -1 and 0. -/
theorem C2_behavior_thresholds_witness :
    behaviorOf (some 1) = "With Market" ∧
    behaviorOf (some (-1)) = "Against Market" ∧
    behaviorOf (some 0) = "Low/Neutral Corr" :=
  ⟨(C2_behavior_thresholds.1 1).1 (by norm_num),
   (C2_behavior_thresholds.1 (-1)).2.1 (by norm_num),
   (C2_behavior_thresholds.1 0).2.2 (by norm_num) (by norm_num)⟩

/-! ### C3: tolerance label thresholds -/

/-- C3: with both captures defined the tolerance label is `"High"` when
`upCapture > 100` and `downCapture < 100`, else `"Low"` when
`upCapture < 90` and `downCapture > 120`, else `"Medium"`, evaluated in
that order; with either capture undefined it is `"Unknown"`. -/
theorem C3_tolerance_thresholds :
    (∀ u d : ℚ,
      (100 < u ∧ d < 100 → toleranceOf (some u) (some d) = "High") ∧
      (¬(100 < u ∧ d < 100) → u < 90 ∧ 120 < d → toleranceOf (some u) (some d) = "Low") ∧
      (¬(100 < u ∧ d < 100) → ¬(u < 90 ∧ 120 < d) →
        toleranceOf (some u) (some d) = "Medium")) ∧
    (∀ o : Option ℚ, toleranceOf none o = "Unknown" ∧ toleranceOf o none = "Unknown") := by
  constructor
  · intro u d
    refine ⟨fun h => ?_, fun h1 h2 => ?_, fun h1 h2 => ?_⟩
    · simp [toleranceOf, h]
    · simp [toleranceOf, h1, h2]
    · simp [toleranceOf, h1, h2]
  · intro o
    cases o with
    | none => exact ⟨rfl, rfl⟩
    | some x => exact ⟨rfl, rfl⟩

/-- C3 (witness): the four branches at concrete capture values. -/
theorem C3_tolerance_thresholds_witness :
    toleranceOf (some 101) (some 99) = "High" ∧
    toleranceOf (some 80) (some 130) = "Low" ∧
    toleranceOf (some 95) (some 99) = "Medium" ∧
    toleranceOf none (some 5) = "Unknown" :=
  ⟨(C3_tolerance_thresholds.1 101 99).1 (by norm_num),
   (C3_tolerance_thresholds.1 80 130).2.1 (by norm_num) (by norm_num),
   (C3_tolerance_thresholds.1 95 99).2.2 (by norm_num) (by norm_num),
   (C3_tolerance_thresholds.2 (some 5)).1⟩

/-! ### C4: capture ratio definedness -/

/-- C4: on a non-empty aligned row set, `upCapture` is undefined exactly
when the positive-benchmark partition is empty or its benchmark mean is
exactly zero, and otherwise equals `mean fund / mean bench * 100` over
that partition; `downCapture` behaves symmetrically with absolute values;
an undefined capture is the explicit no-value `none`. -/
theorem C4_capture_definedness :
    ∀ rows : List MRow, rows ≠ [] →
      ((upCapture rows = none ↔
          upRows rows = [] ∨ qmean ((upRows rows).map (fun r => r.niftyChange)) = 0) ∧
       (upRows rows ≠ [] → qmean ((upRows rows).map (fun r => r.niftyChange)) ≠ 0 →
          upCapture rows = some (qmean ((upRows rows).map (fun r => r.fundChange)) /
            qmean ((upRows rows).map (fun r => r.niftyChange)) * 100)) ∧
       (downCapture rows = none ↔
          downRows rows = [] ∨ qmean ((downRows rows).map (fun r => r.niftyChange)) = 0) ∧
       (downRows rows ≠ [] → qmean ((downRows rows).map (fun r => r.niftyChange)) ≠ 0 →
          downCapture rows = some (|qmean ((downRows rows).map (fun r => r.fundChange))| /
            |qmean ((downRows rows).map (fun r => r.niftyChange))| * 100))) := by
  intro rows _
  refine ⟨?_, ?_, ?_, ?_⟩
  · by_cases h1 : upRows rows = []
    · simp [upCapture, h1]
    · by_cases h2 : qmean ((upRows rows).map (fun r => r.niftyChange)) = 0
      · simp [upCapture, List.isEmpty_iff, h1, h2]
      · simp [upCapture, List.isEmpty_iff, h1, h2]
  · intro h1 h2
    simp [upCapture, List.isEmpty_iff, h1, h2]
  · by_cases h1 : downRows rows = []
    · simp [downCapture, h1]
    · by_cases h2 : qmean ((downRows rows).map (fun r => r.niftyChange)) = 0
      · simp [downCapture, List.isEmpty_iff, h1, h2]
      · simp [downCapture, List.isEmpty_iff, h1, h2]
  · intro h1 h2
    simp [downCapture, List.isEmpty_iff, h1, h2]

/-- C4 (witness): a concrete two-row set with one up day and one down
day yields the stated ratios, and a set with no positive benchmark day
has an undefined (none) up capture. -/
theorem C4_capture_definedness_witness :
    upCapture [⟨1, 2⟩, ⟨3, -1⟩] = some 50 ∧
    downCapture [⟨1, 2⟩, ⟨3, -1⟩] = some 300 ∧
    upCapture [⟨1, -2⟩] = none := by
  refine ⟨?_, ?_, ?_⟩
  · have h := (C4_capture_definedness [⟨1, 2⟩, ⟨3, -1⟩] (by decide)).2.1
      (by decide) (by decide)
    rw [h]; decide
  · have h := (C4_capture_definedness [⟨1, 2⟩, ⟨3, -1⟩] (by decide)).2.2.2
      (by decide) (by decide)
    rw [h]; decide
  · exact (C4_capture_definedness [⟨1, -2⟩] (by decide)).1.2 (Or.inl (by decide))

/-! ### C8: rounding only at emission -/

/-- C8: the summary record carries the rounded copies (correlation to 3
decimals, percentages to 1, mean returns to 4) while both labels are
computed from the UNROUNDED correlation and captures; rounding first would
change the outcome, e.g. at correlation 0.5996. -/
theorem C8_rounding_only_on_emit :
    (∀ (corr : Option ℚ) (rows : List MRow),
      (summaryOf corr rows).behavior = behaviorOf corr ∧
      (summaryOf corr rows).tolerance = toleranceOf (upCapture rows) (downCapture rows) ∧
      (summaryOf corr rows).correlation = corr.map (roundTo 3) ∧
      (summaryOf corr rows).withMarketPct = roundTo 1 (withPct rows) ∧
      (summaryOf corr rows).upCap = (upCapture rows).map (roundTo 1) ∧
      (summaryOf corr rows).downCap = (downCapture rows).map (roundTo 1) ∧
      (summaryOf corr rows).avgFund = roundTo 4 (qmean (rows.map (fun r => r.fundChange))) ∧
      (summaryOf corr rows).avgNifty = roundTo 4 (qmean (rows.map (fun r => r.niftyChange)))) ∧
    behaviorOf (some (5996/10000)) = "Low/Neutral Corr" ∧
    behaviorOf (some (roundTo 3 (5996/10000))) = "With Market" :=
  ⟨fun _ _ => ⟨rfl, rfl, rfl, rfl, rfl, rfl, rfl, rfl⟩, by decide, by decide⟩

/-- C8 (witness): the summary record at a concrete correlation and row
set carries the unrounded-threshold label next to the rounded display
value. -/
theorem C8_rounding_only_on_emit_witness :
    (summaryOf (some (5996/10000)) [⟨1, 1⟩]).behavior = behaviorOf (some (5996/10000)) ∧
    (summaryOf (some (5996/10000)) [⟨1, 1⟩]).correlation
      = (some (5996/10000 : ℚ)).map (roundTo 3) :=
  ⟨(C8_rounding_only_on_emit.1 (some (5996/10000)) [⟨1, 1⟩]).1,
   (C8_rounding_only_on_emit.1 (some (5996/10000)) [⟨1, 1⟩]).2.2.1⟩

/-! ### C9: per-fund skip and summary count -/

/-- C9: every query whose aligned series is empty (no catalog match,
failed or empty fetch, or empty aligned merge) contributes no record and
the run continues, so the number of collected records equals the number
of queries with a non-empty aligned series, and the no-data placeholder
is emitted exactly when every query has an empty aligned series. -/
theorem C9_skip_and_count :
    ∀ (env : Env) (queries : List (List Char)),
      (runSummaries env queries).length
        = queries.countP (fun q => !(alignedSeriesOf env q).isEmpty) ∧
      (runOutput env queries = RunOutput.noData ↔
        ∀ q ∈ queries, alignedSeriesOf env q = []) := by
  intro env queries
  constructor
  · induction queries with
    | nil => rfl
    | cons q qs ih =>
      by_cases h : alignedSeriesOf env q = []
      · simp [runSummaries, List.filterMap_cons, processQuery, h, List.countP_cons,
          List.isEmpty_iff] at ih ⊢
        exact ih
      · simp [runSummaries, List.filterMap_cons, processQuery, h, List.countP_cons,
          List.isEmpty_iff] at ih ⊢
        exact ih
  · have hmem : runSummaries env queries = [] ↔ ∀ q ∈ queries, alignedSeriesOf env q = [] := by
      rw [runSummaries, List.filterMap_eq_nil_iff]
      constructor
      · intro h q hq
        have := h q hq
        by_contra hne
        simp [processQuery, hne] at this
      · intro h q hq
        simp [processQuery, h q hq]
    constructor
    · intro h
      rw [runOutput] at h
      by_contra hne
      rw [← hmem] at hne
      simp [hne] at h
    · intro h
      rw [← hmem] at h
      simp [runOutput, h]

/-- C9 (witness): a two-query run in which the first query has no catalog
match (empty aligned series, skipped) and the second aligns to one row,
producing exactly one record. -/
theorem C9_skip_and_count_witness :
    (runSummaries ⟨[⟨7, ['x']⟩], fun _ => some [(0, 10), (1, 20)], 0, [(1, 100, 101)]⟩
        [['z', 'q'], ['x']]).length
      = List.countP (fun q => !(alignedSeriesOf
          ⟨[⟨7, ['x']⟩], fun _ => some [(0, 10), (1, 20)], 0, [(1, 100, 101)]⟩ q).isEmpty)
          [['z', 'q'], ['x']] :=
  (C9_skip_and_count ⟨[⟨7, ['x']⟩], fun _ => some [(0, 10), (1, 20)], 0, [(1, 100, 101)]⟩
    [['z', 'q'], ['x']]).1

end MF
